import Mathlib

/-!
Verification of the cnomlite parser-combinator engine from src/cnomlite.hpp.

The embedding is shallow: the input string and the error messages become
character lists, a parser becomes a function from the input to a parse
result, and each primitive and combinator of the header is translated
one-for-one.  The two loop combinators (many and sep_by) iterate a
C++ while-true loop; they are modelled by a step function on an explicit
iteration budget.  The budget passed by the wrappers, one more than the
input length, can never run out while the looped parser strictly consumes
input on success, which is the case for every parser of the library; when
the looped parser succeeds without consuming, the source loop never
terminates, and the model instead stops the loop with the values collected
so far.
-/

namespace cnomlite

/-- Character sequences, standing for std::string in the source. -/
abbrev Str := List Char

/-- ParseResult of T, a variant of ParseSuccess of T (value and unconsumed
remainder) and std::string (the error message). -/
inductive ParseResult (T : Type) where
  | success (value : T) (remaining : Str)
  | failure (msg : Str)
  deriving DecidableEq, Repr

/-- A Parser of T takes the input string to a ParseResult of T. -/
abbrev Parser (T : Type) := Str → ParseResult T

/-- C isspace in the default locale: space, tab, newline, vertical tab,
form feed, carriage return. -/
def isSpaceC (c : Char) : Bool :=
  c = ' ' || c = '\t' || c = '\n' || c = '\x0b' || c = '\x0c' || c = '\r'

/-- any_char: one character of a non-empty input, else
"Unexpected end of input". -/
def any_char : Parser Char := fun input =>
  match input with
  | [] => .failure "Unexpected end of input".toList
  | c :: rest => .success c rest

/-- char_p(expected): the expected character, or an error naming the
expected and found characters (EOF on empty input). -/
def char_p (expected : Char) : Parser Char := fun input =>
  match input with
  | c :: rest =>
    if c = expected then .success expected rest
    else .failure ("Expected \x27".toList ++ [expected] ++ "\x27, found \x27".toList
      ++ [c] ++ "\x27".toList)
  | [] => .failure ("Expected \x27".toList ++ [expected]
      ++ "\x27, found \x27EOF\x27".toList)

/-- string_p(expected): the literal string, consumed char for char when it
prefixes the input, or an error naming the expected literal and the found
prefix (the whole remaining input when shorter). -/
def string_p (expected : Str) : Parser Str := fun input =>
  if expected.length ≤ input.length ∧ input.take expected.length = expected then
    .success expected (input.drop expected.length)
  else
    .failure ("Expected \"".toList ++ expected ++ "\", found \"".toList
      ++ (if expected.length ≤ input.length then input.take expected.length else input)
      ++ "\"".toList)

/-- digit: one ASCII decimal digit. -/
def digit : Parser Char := fun input =>
  match input with
  | c :: rest =>
    if c.isDigit then .success c rest
    else .failure ("Expected digit, found \x27".toList ++ [c] ++ "\x27".toList)
  | [] => .failure "Expected digit, found \x27EOF\x27".toList

/-- whitespace_char: one whitespace character per C isspace. -/
def whitespace_char : Parser Char := fun input =>
  match input with
  | c :: rest =>
    if isSpaceC c then .success c rest
    else .failure ("Expected whitespace, found \x27".toList ++ [c] ++ "\x27".toList)
  | [] => .failure "Expected whitespace, found \x27EOF\x27".toList

/-- map(p, f): apply f to the value on success, forward failures. -/
def map {A B : Type} (p : Parser A) (f : A → B) : Parser B := fun input =>
  match p input with
  | .success v r => .success (f v) r
  | .failure e => .failure e

/-- bind(p, f): run p, then run the parser f(value) on the remainder;
forward failures of p. -/
def bind {A B : Type} (p : Parser A) (f : A → Parser B) : Parser B := fun input =>
  match p input with
  | .success v r => f v r
  | .failure e => .failure e

/-- sequence(p1, p2): run p1 then p2 on its remainder, pairing the values;
short-circuit on the first failure. -/
def sequence {A B : Type} (p1 : Parser A) (p2 : Parser B) : Parser (A × B) := fun input =>
  match p1 input with
  | .success v1 r1 =>
    match p2 r1 with
    | .success v2 r2 => .success (v1, v2) r2
    | .failure e => .failure e
  | .failure e => .failure e

/-- The loop of choice: try each parser against the same original input,
returning the first success and accumulating every error message followed
by " | "; when the list is exhausted, trim the last three characters of a
non-empty accumulator and fail with it, or with "No alternatives matched"
when the accumulator is empty. -/
def choiceGo {T : Type} (input : Str) : List (Parser T) → Str → ParseResult T
  | [], errors =>
    let errors := if errors.isEmpty then errors else errors.take (errors.length - 3)
    if errors.isEmpty then .failure "No alternatives matched".toList else .failure errors
  | p :: ps, errors =>
    match p input with
    | .success v r => .success v r
    | .failure e => choiceGo input ps (errors ++ e ++ " | ".toList)

/-- choice(parsers): first success among the alternatives, or the joined
error messages. -/
def choice {T : Type} (parsers : List (Parser T)) : Parser T := fun input =>
  choiceGo input parsers []

/-- The loop of many: run p on the current remainder while it succeeds,
collecting the values; each recursion step is one iteration of the source
while-true loop, and an exhausted budget stops the loop (the source loops
forever once p stops consuming, since then the budget below never runs
out before p fails). -/
def manyGo {T : Type} (p : Parser T) : Nat → Str → List T × Str
  | 0, remaining => ([], remaining)
  | fuel + 1, remaining =>
    match p remaining with
    | .failure _ => ([], remaining)
    | .success v r =>
      let res := manyGo p fuel r
      (v :: res.1, res.2)

/-- many(p): zero or more occurrences of p; always succeeds with the
collected values and the remainder where p first failed. -/
def many {T : Type} (p : Parser T) : Parser (List T) := fun input =>
  let res := manyGo p (input.length + 1) input
  .success res.1 res.2

/-- many1(p): as many(p) but an empty collection becomes the failure
"Expected at least one occurrence". -/
def many1 {T : Type} (p : Parser T) : Parser (List T) := fun input =>
  match many p input with
  | .success vs r =>
    if vs.isEmpty then .failure "Expected at least one occurrence".toList
    else .success vs r
  | .failure e => .failure e

/-- optional_p(p): the value of p wrapped in some on success; on failure,
succeed with none and the untouched input. -/
def optional_p {T : Type} (p : Parser T) : Parser (Option T) := fun input =>
  match p input with
  | .success v r => .success (some v) r
  | .failure _ => .success none input

/-- The loop of sep_by: run element, push its value and continue past a
succeeding separator; stop when element fails (keeping the current
remainder) or when the separator fails (keeping the element remainder).
As in manyGo, one recursion step is one source loop iteration and the
budget only stops loops the source never exits. -/
def sepByGo {T S : Type} (element : Parser T) (separator : Parser S) :
    Nat → Str → List T × Str
  | 0, remaining => ([], remaining)
  | fuel + 1, remaining =>
    match element remaining with
    | .failure _ => ([], remaining)
    | .success v r1 =>
      match separator r1 with
      | .failure _ => ([v], r1)
      | .success _ r2 =>
        let res := sepByGo element separator fuel r2
        (v :: res.1, res.2)

/-- sep_by(element, separator): elements separated by the separator;
always succeeds, and a separator dangling before a failing element stays
consumed. -/
def sep_by {T S : Type} (element : Parser T) (separator : Parser S) :
    Parser (List T) := fun input =>
  let res := sepByGo element separator (input.length + 1) input
  .success res.1 res.2

/-- whitespace: zero or more whitespace characters. -/
def whitespace : Parser (List Char) := many whitespace_char

/-- skip_ws(p): discard leading whitespace, then run p. -/
def skip_ws {T : Type} (p : Parser T) : Parser T :=
  bind whitespace (fun _ => p)

/-- C++ int of the implementation: a 32-bit two's-complement machine
integer, arithmetic results reduced into the signed range (signed overflow
is undefined behavior in the standard and wraps on the implementation). -/
def wrap32 (n : Int) : Int := (n + 2147483648) % 4294967296 - 2147483648

/-- The decimal fold of integer_p, value = value * 10 + (c - zero), each
step in the machine int arithmetic of the implementation. -/
def digitsToInt (digits : List Char) : Int :=
  digits.foldl (fun value c => wrap32 (value * 10 + ((c.toNat : Int) - ('0'.toNat : Int)))) 0

/-- integer_p: one or more digits folded into a machine integer. -/
def integer_p : Parser Int := map (many1 digit) digitsToInt

/-- A concrete test parser (claims quantify over arbitrary parsers): it
always fails, with the empty error message. -/
def failEmptyMsg : Parser Char := fun _ => .failure []

/-- The separator placed between branch error messages by choice. -/
def barSep : Str := " | ".toList

/-- The accumulated error string of the loop of choice when every branch
fails: every branch message followed by the separator. -/
def joinBar (msgs : List Str) : Str := (msgs.map (fun m => m ++ barSep)).flatten

/-- The parsers built from the primitives and the combinators of the
library, every caller-supplied function of bind returning such a parser
again (a map function may be any pure function). -/
inductive Composed : {T : Type} → Parser T → Prop where
  | ofAnyChar : Composed any_char
  | ofCharP (c : Char) : Composed (char_p c)
  | ofStringP (s : Str) : Composed (string_p s)
  | ofDigit : Composed digit
  | ofWhitespaceChar : Composed whitespace_char
  | ofMap {A B : Type} {p : Parser A} (f : A → B) :
      Composed p → Composed (map p f)
  | ofBind {A B : Type} {p : Parser A} {f : A → Parser B} :
      Composed p → (∀ a, Composed (f a)) → Composed (bind p f)
  | ofSequence {A B : Type} {p1 : Parser A} {p2 : Parser B} :
      Composed p1 → Composed p2 → Composed (sequence p1 p2)
  | ofChoice {T : Type} {ps : List (Parser T)} :
      (∀ p ∈ ps, Composed p) → Composed (choice ps)
  | ofMany {T : Type} {p : Parser T} : Composed p → Composed (many p)
  | ofMany1 {T : Type} {p : Parser T} : Composed p → Composed (many1 p)
  | ofOptionalP {T : Type} {p : Parser T} : Composed p → Composed (optional_p p)
  | ofSepBy {T S : Type} {e : Parser T} {s : Parser S} :
      Composed e → Composed s → Composed (sep_by e s)

/-- Claim C10: string_p with the empty expected literal consumes nothing and
never fails, returning the empty value and the whole input as remainder. -/
theorem string_p_empty_total (i : Str) : string_p [] i = .success [] i := by
  simp [string_p]

/-- Claim C8: mapping the identity function over a parser changes nothing,
on success and on failure alike. -/
theorem map_identity {T : Type} (p : Parser T) (i : Str) :
    map p (fun a => a) i = p i := by
  unfold map
  cases p i <;> rfl

/-- Claim C5: optional_p never fails; it forwards a success of p wrapped in
some, and on failure of p succeeds with none and the original input as the
untouched remainder. -/
theorem optional_p_spec {T : Type} (p : Parser T) (i : Str) :
    (∃ o r, optional_p p i = .success o r) ∧
    (∀ v r, p i = .success v r → optional_p p i = .success (some v) r) ∧
    (∀ e, p i = .failure e → optional_p p i = .success none i) := by
  refine ⟨?_, ?_, ?_⟩
  · unfold optional_p
    cases p i
    · exact ⟨_, _, rfl⟩
    · exact ⟨_, _, rfl⟩
  · intro v r h
    unfold optional_p
    rw [h]
  · intro e h
    unfold optional_p
    rw [h]

theorem optional_p_spec_witness : optional_p digit [] = .success none [] :=
  (optional_p_spec digit []).2.2 "Expected digit, found \x27EOF\x27".toList (by decide)

/-- While the looped parser strictly consumes input on success, the loop of
many does not depend on the iteration budget once the budget exceeds the
remaining length. -/
lemma manyGo_fuel {T : Type} (p : Parser T)
    (hp : ∀ j v r, p j = .success v r → r.length < j.length) :
    ∀ f1 f2 rem, rem.length < f1 → rem.length < f2 →
      manyGo p f1 rem = manyGo p f2 rem := by
  intro f1
  induction f1 with
  | zero => intro f2 rem h1 _; exact absurd h1 (Nat.not_lt_zero _)
  | succ n ih =>
    intro f2 rem h1 h2
    cases f2 with
    | zero => exact absurd h2 (Nat.not_lt_zero _)
    | succ m =>
      cases hpr : p rem with
      | failure e => simp only [manyGo, hpr]
      | success v r =>
        have hr := hp rem v r hpr
        simp only [manyGo, hpr]
        rw [ih m r (by omega) (by omega)]

/-- When the looped parser fails at once, many collects nothing and keeps
the input. -/
lemma many_eval_fail {T : Type} {p : Parser T} {i : Str} {e : Str}
    (h : p i = .failure e) : many p i = .success [] i := by
  unfold many manyGo
  rw [h]

/-- When the looped parser succeeds once and then fails, many collects the
one value and keeps the remainder of the success. -/
lemma many_eval_one {T : Type} {p : Parser T} {i : Str} {v : T} {r : Str} {e : Str}
    (h1 : p i = .success v r) (h2 : p r = .failure e) :
    many p i = .success [v] r := by
  have e2 : manyGo p i.length r = ([], r) := by
    cases hn : i.length with
    | zero => rfl
    | succ n => simp only [manyGo, h2]
  simp only [many, manyGo, h1, e2]

/-- Claim C4: many never fails; it returns an empty collection and the
untouched input when p fails at once, and when p consumes on success, a
first success of p prepends its value to the result of many on the
remainder of that success. -/
theorem many_spec {T : Type} (p : Parser T) (i : Str) :
    (∃ vs r, many p i = .success vs r) ∧
    (∀ e, p i = .failure e → many p i = .success [] i) ∧
    ((∀ j v r, p j = .success v r → r.length < j.length) →
      ∀ v r, p i = .success v r →
        ∃ vs rr, many p r = .success vs rr ∧ many p i = .success (v :: vs) rr) := by
  refine ⟨⟨_, _, rfl⟩, fun e h => many_eval_fail h, ?_⟩
  intro hp v r h
  have hr := hp i v r h
  refine ⟨(manyGo p (r.length + 1) r).1, (manyGo p (r.length + 1) r).2, rfl, ?_⟩
  have efuel := manyGo_fuel p hp i.length (r.length + 1) r (by omega) (by omega)
  simp only [many, manyGo, h, efuel]

/-- The digit parser strictly consumes input on success. -/
lemma digit_consumes : ∀ j v r, digit j = ParseResult.success v r → r.length < j.length := by
  intro j v r h
  cases j with
  | nil => simp [digit] at h
  | cons c cs =>
    simp only [digit] at h
    split at h
    · cases h
      exact Nat.lt_succ_self _
    · cases h

theorem many_spec_witness : many digit ('1' :: 'a' :: []) = .success ['1'] ('a' :: []) := by
  obtain ⟨vs, rr, h1, h2⟩ :=
    (many_spec digit ('1' :: 'a' :: [])).2.2 digit_consumes '1' ('a' :: []) (by decide)
  have h0 : many digit ('a' :: []) = .success [] ('a' :: []) := by decide
  rw [h0] at h1
  cases h1
  exact h2

/-- Claim C6: many1 fails with exactly "Expected at least one occurrence"
when p fails at once (the collected sequence is empty); whenever many
collects a non-empty sequence, many1 forwards that success unchanged; in
particular, on an input where p matches once and then fails it succeeds
with the one-element sequence and the remainder of p. -/
theorem many1_spec {T : Type} (p : Parser T) (i : Str) :
    (∀ e, p i = .failure e →
      many1 p i = .failure "Expected at least one occurrence".toList) ∧
    (∀ vs r, many p i = .success vs r → vs ≠ [] →
      many1 p i = .success vs r) ∧
    (∀ v r e, p i = .success v r → p r = .failure e →
      many1 p i = .success [v] r) := by
  refine ⟨?_, ?_, ?_⟩
  · intro e h
    unfold many1
    rw [many_eval_fail h]
    rfl
  · intro vs r h hne
    cases vs with
    | nil => exact absurd rfl hne
    | cons a as =>
      unfold many1
      rw [h]
      rfl
  · intro v r e h1 h2
    unfold many1
    rw [many_eval_one h1 h2]
    rfl

theorem many1_spec_witness :
    many1 digit "abc".toList = .failure "Expected at least one occurrence".toList ∧
    many1 digit "12a".toList = .success ['1', '2'] "a".toList ∧
    many1 digit "1a".toList = .success ['1'] "a".toList :=
  ⟨(many1_spec digit "abc".toList).1 "Expected digit, found \x27a\x27".toList (by decide),
   (many1_spec digit "12a".toList).2.1 ['1', '2'] "a".toList (by decide) (by decide),
   (many1_spec digit "1a".toList).2.2 '1' "a".toList
     "Expected digit, found \x27a\x27".toList (by decide) (by decide)⟩

/-- Claim C1: when an element succeeds, the separator then succeeds and the
next element fails, sep_by succeeds and its remainder sits after the
dangling separator, whose consumed input is not restored; concretely, the
comma-separated integer list parser accepts "10,20," in full with value
[10, 20]. -/
theorem sep_by_dangling_separator :
    (∀ {T S : Type} (e : Parser T) (s : Parser S) (i : Str) (v : T) (r1 : Str)
      (sv : S) (r2 : Str) (m : Str),
      e i = .success v r1 → s r1 = .success sv r2 → e r2 = .failure m →
      sep_by e s i = .success [v] r2) ∧
    sep_by integer_p (skip_ws (char_p ',')) "10,20,".toList = .success [10, 20] [] := by
  constructor
  · intro T S e s i v r1 sv r2 m h1 h2 h3
    have e2 : sepByGo e s i.length r2 = ([], r2) := by
      cases hn : i.length with
      | zero => rfl
      | succ n => simp only [sepByGo, h3]
    simp only [sep_by, sepByGo, h1, h2, e2]
  · decide

theorem sep_by_dangling_separator_witness :
    sep_by any_char any_char ('a' :: 'b' :: []) = .success ['a'] [] :=
  sep_by_dangling_separator.1 any_char any_char ('a' :: 'b' :: []) 'a' ('b' :: [])
    'b' [] "Unexpected end of input".toList (by decide) (by decide) (by decide)

/-- On any remainder, the loop of many over digit splits off exactly the
maximal leading run of ASCII digits. -/
lemma manyGo_digit : ∀ (fuel : Nat) (rem : Str), rem.length < fuel →
    manyGo digit fuel rem = (rem.takeWhile Char.isDigit, rem.dropWhile Char.isDigit) := by
  intro fuel
  induction fuel with
  | zero => intro rem h; exact absurd h (Nat.not_lt_zero _)
  | succ n ih =>
    intro rem h
    cases rem with
    | nil => simp [manyGo, digit]
    | cons c cs =>
      have hlen : cs.length < n := by
        simp only [List.length_cons] at h
        omega
      by_cases hc : c.isDigit
      · have hd : digit (c :: cs) = .success c cs := by simp [digit, hc]
        simp only [manyGo, hd, ih cs hlen, List.takeWhile_cons, List.dropWhile_cons, hc,
          if_true]
      · have hd : digit (c :: cs)
            = .failure ("Expected digit, found \x27".toList ++ [c] ++ "\x27".toList) := by
          simp [digit, hc]
        simp only [manyGo, hd, List.takeWhile_cons, List.dropWhile_cons, hc]
        simp

/-- many1 over digit succeeds on a digit-leading input with exactly the
maximal leading digit run. -/
lemma many1_digit (c : Char) (cs : Str) (hc : c.isDigit = true) :
    many1 digit (c :: cs)
      = .success ((c :: cs).takeWhile Char.isDigit)
          ((c :: cs).dropWhile Char.isDigit) := by
  have hm : many digit (c :: cs)
      = .success ((c :: cs).takeWhile Char.isDigit) ((c :: cs).dropWhile Char.isDigit) := by
    simp only [many, manyGo_digit ((c :: cs).length + 1) (c :: cs) (Nat.lt_succ_self _)]
  have hne : ((c :: cs).takeWhile Char.isDigit).isEmpty = false := by
    simp [List.takeWhile_cons, hc]
  simp only [many1, hm, hne, Bool.false_eq_true, if_false]

/-- Claim C7: on an input beginning with a decimal digit, integer_p
succeeds, consumes exactly the maximal leading run of digits, and its
value is the left-to-right decimal fold over that run. -/
theorem integer_p_spec (c : Char) (cs : Str) (hc : c.isDigit = true) :
    integer_p (c :: cs)
      = .success (digitsToInt ((c :: cs).takeWhile Char.isDigit))
          ((c :: cs).dropWhile Char.isDigit) := by
  simp only [integer_p, map, many1_digit c cs hc]

theorem integer_p_spec_witness :
    integer_p "123abc".toList = .success 123 "abc".toList :=
  (integer_p_spec '1' "23abc".toList (by decide)).trans (by decide)

/-- The loop of choice returns the first success, whatever errors have
accumulated from earlier failing branches. -/
lemma choiceGo_first_success {T : Type} {i : Str} {p : Parser T} {v : T} {r : Str}
    (hp : p i = .success v r) :
    ∀ (ps1 ps2 : List (Parser T)) (errors : Str),
      (∀ q ∈ ps1, ∃ e, q i = ParseResult.failure e) →
      choiceGo i (ps1 ++ p :: ps2) errors = .success v r := by
  intro ps1
  induction ps1 with
  | nil =>
    intro ps2 errors _
    simp only [List.nil_append, choiceGo, hp]
  | cons q qs ih =>
    intro ps2 errors hfail
    obtain ⟨e, he⟩ := hfail q (List.mem_cons_self q qs)
    simp only [List.cons_append, choiceGo, he]
    exact ih ps2 _ (fun q' hq' => hfail q' (List.mem_cons_of_mem _ hq'))

/-- One failing branch of the loop of choice appends its message and the
separator to the accumulator. -/
lemma choiceGo_cons_fail {T : Type} {i : Str} {p : Parser T} {ps : List (Parser T)}
    {errors e : Str} (he : p i = .failure e) :
    choiceGo i (p :: ps) errors = choiceGo i ps (errors ++ e ++ " | ".toList) := by
  simp only [choiceGo, he]

/-- When every branch fails, the loop of choice ends in the empty-list case
with all the branch messages appended to the accumulator. -/
lemma choiceGo_all_fail {T : Type} {i : Str} {ps : List (Parser T)} {msgs : List Str}
    (h : List.Forall₂ (fun p m => p i = ParseResult.failure m) ps msgs) :
    ∀ errors, choiceGo i ps errors = choiceGo i [] (errors ++ joinBar msgs) := by
  induction h with
  | nil => intro errors; simp [joinBar]
  | @cons p m ps' msgs' hpm hrest ih =>
    intro errors
    have happ : errors ++ m ++ " | ".toList ++ joinBar msgs'
        = errors ++ joinBar (m :: msgs') := by
      simp [joinBar, barSep, List.append_assoc]
    rw [choiceGo_cons_fail hpm, ih (errors ++ m ++ " | ".toList), happ]

/-- The end of the loop of choice on an accumulator ending in the
separator: the separator is trimmed, and an empty trimmed message becomes
"No alternatives matched". -/
lemma choiceGo_nil_eval {T : Type} (i : Str) (X : Str) :
    choiceGo (T := T) i [] (X ++ barSep)
      = .failure (if X.isEmpty then "No alternatives matched".toList else X) := by
  have hlen : (X ++ barSep).length - 3 = X.length := by
    simp [barSep]
  have hne : (X ++ barSep).isEmpty = false := by
    cases X <;> simp [barSep]
  have htake : (X ++ barSep).take X.length = X := List.take_left X barSep
  cases hX : X.isEmpty with
  | true =>
    have : X = [] := by cases X with
      | nil => rfl
      | cons a as => simp at hX
    subst this
    simp [choiceGo, hne, hlen, barSep]
  | false =>
    simp only [choiceGo, hne, Bool.false_eq_true, if_false, hlen, htake, hX]

/-- The joined-with-separator form of a non-empty message list: the
intercalation followed by one trailing separator. -/
lemma joinBar_cons_eq : ∀ (ms : List Str) (m : Str),
    joinBar (m :: ms) = List.intercalate barSep (m :: ms) ++ barSep := by
  intro ms
  induction ms with
  | nil =>
    intro m
    simp [joinBar, List.intercalate]
  | cons m2 ms' ih =>
    intro m
    have h1 : joinBar (m :: m2 :: ms') = m ++ barSep ++ joinBar (m2 :: ms') := by
      simp [joinBar, List.append_assoc]
    have h2 : List.intercalate barSep (m :: m2 :: ms')
        = m ++ barSep ++ List.intercalate barSep (m2 :: ms') := by
      simp [List.intercalate, List.intersperse_cons₂, List.append_assoc]
    rw [h1, h2, ih m2, List.append_assoc, List.append_assoc, List.append_assoc]

/-- When every branch fails, choice fails with the trimmed joined message,
or with "No alternatives matched" when that joined message is empty. -/
lemma choice_all_fail_eval {T : Type} {ps : List (Parser T)} {msgs : List Str} {i : Str}
    (h : List.Forall₂ (fun p m => p i = ParseResult.failure m) ps msgs) :
    choice ps i = .failure
      (if (List.intercalate barSep msgs).isEmpty then "No alternatives matched".toList
       else List.intercalate barSep msgs) := by
  have hgo := choiceGo_all_fail h []
  cases msgs with
  | nil =>
    cases h
    simp [choice, choiceGo, joinBar, List.intercalate]
  | cons m ms =>
    rw [choice]
    rw [hgo, List.nil_append, joinBar_cons_eq ms m, choiceGo_nil_eval]

/-- Claim C3 as stated is false at a single alternative failing with the
empty message: the joined trimmed message is empty there, yet choice falls
back to "No alternatives matched". -/
theorem choice_single_empty_message_cex :
    choice [failEmptyMsg] [] ≠ .failure (List.intercalate barSep [([] : Str)]) ∧
    choice [failEmptyMsg] [] = .failure "No alternatives matched".toList := by
  constructor
  · decide
  · decide

/-- Claim C3, amended: choice tries the alternatives in order against the
same original input and returns the result of the first success; when
every alternative fails it fails with the branch messages joined by the
separator " | " with the trailing separator trimmed, except that an empty
joined message — an empty list of alternatives, or a single alternative
failing with the empty message — becomes "No alternatives matched". -/
theorem choice_spec_amended :
    (∀ {T : Type} (p : Parser T) (ps1 ps2 : List (Parser T)) (i : Str) (v : T) (r : Str),
      (∀ q ∈ ps1, ∃ e, q i = ParseResult.failure e) → p i = .success v r →
      choice (ps1 ++ p :: ps2) i = .success v r) ∧
    (∀ {T : Type} (ps : List (Parser T)) (msgs : List Str) (i : Str),
      List.Forall₂ (fun p m => p i = ParseResult.failure m) ps msgs →
      choice ps i = .failure
        (if (List.intercalate barSep msgs).isEmpty then "No alternatives matched".toList
         else List.intercalate barSep msgs)) := by
  constructor
  · intro T p ps1 ps2 i v r hfail hp
    rw [choice]
    exact choiceGo_first_success hp ps1 ps2 [] hfail
  · intro T ps msgs i h
    exact choice_all_fail_eval h

theorem choice_spec_amended_witness :
    choice [char_p 'a', digit] ('9' :: []) = .success '9' [] ∧
    choice [digit] ('x' :: []) = .failure "Expected digit, found \x27x\x27".toList := by
  constructor
  · exact choice_spec_amended.1 digit [char_p 'a'] [] ('9' :: []) '9' []
      (fun q hq => by
        rcases List.mem_singleton.mp hq with rfl
        exact ⟨"Expected \x27a\x27, found \x279\x27".toList, by decide⟩)
      (by decide)
  · exact (choice_spec_amended.2 [digit] ["Expected digit, found \x27x\x27".toList]
      ('x' :: []) (List.Forall₂.cons (by decide) List.Forall₂.nil)).trans (by decide)

/-- The loop of many leaves a suffix of its remainder argument whenever
the looped parser does. -/
lemma manyGo_suffix {T : Type} {p : Parser T}
    (hp : ∀ i v r, p i = .success v r → List.IsSuffix r i) :
    ∀ (fuel : Nat) (rem : Str), List.IsSuffix (manyGo p fuel rem).2 rem := by
  intro fuel
  induction fuel with
  | zero => intro rem; exact List.suffix_refl rem
  | succ n ih =>
    intro rem
    cases hpr : p rem with
    | failure e =>
      simp only [manyGo, hpr]
      exact List.suffix_refl rem
    | success v r =>
      simp only [manyGo, hpr]
      exact (ih r).trans (hp rem v r hpr)

/-- The loop of sep_by leaves a suffix of its remainder argument whenever
the element and the separator do. -/
lemma sepByGo_suffix {T S : Type} {e : Parser T} {s : Parser S}
    (he : ∀ i v r, e i = .success v r → List.IsSuffix r i)
    (hs : ∀ i v r, s i = .success v r → List.IsSuffix r i) :
    ∀ (fuel : Nat) (rem : Str), List.IsSuffix (sepByGo e s fuel rem).2 rem := by
  intro fuel
  induction fuel with
  | zero => intro rem; exact List.suffix_refl rem
  | succ n ih =>
    intro rem
    cases her : e rem with
    | failure m =>
      simp only [sepByGo, her]
      exact List.suffix_refl rem
    | success v r1 =>
      cases hsr : s r1 with
      | failure m =>
        simp only [sepByGo, her, hsr]
        exact he rem v r1 her
      | success sv r2 =>
        simp only [sepByGo, her, hsr]
        exact (ih r2).trans ((hs r1 sv r2 hsr).trans (he rem v r1 her))

/-- A success of the loop of choice is a success of one branch on the
original input, hence a suffix when every branch yields suffixes. -/
lemma choiceGo_suffix {T : Type} {i : Str} :
    ∀ (ps : List (Parser T)),
      (∀ p ∈ ps, ∀ j v r, p j = .success v r → List.IsSuffix r j) →
      ∀ (errors : Str) (v : T) (r : Str),
        choiceGo i ps errors = .success v r → List.IsSuffix r i := by
  intro ps
  induction ps with
  | nil =>
    intro _ errors v r h
    exfalso
    simp only [choiceGo] at h
    split at h
    · exact ParseResult.noConfusion h
    · split at h
      · exact ParseResult.noConfusion h
      · exact ParseResult.noConfusion h
  | cons p ps' ih =>
    intro hps errors v r h
    cases hpr : p i with
    | success v' r' =>
      simp only [choiceGo, hpr] at h
      cases h
      exact hps p (List.mem_cons_self p ps') _ _ _ hpr
    | failure m =>
      rw [choiceGo_cons_fail hpr] at h
      exact ih (fun q hq => hps q (List.mem_cons_of_mem _ hq)) _ v r h

/-- Claim C2: every parser composed from the primitives and the
combinators of the library, all caller-supplied functions staying inside
the class, consumes monotonically: a successful parse returns a remainder
that is a suffix of the input. -/
theorem composed_monotonic {T : Type} (p : Parser T) (hp : Composed p) :
    ∀ (i : Str) (v : T) (r : Str), p i = .success v r → List.IsSuffix r i := by
  induction hp with
  | ofAnyChar =>
    intro i v r h
    cases i with
    | nil => simp [any_char] at h
    | cons c cs =>
      simp only [any_char] at h
      cases h
      exact List.suffix_cons _ _
  | ofCharP c =>
    intro i v r h
    cases i with
    | nil => simp [char_p] at h
    | cons a as =>
      simp only [char_p] at h
      split at h
      · cases h
        exact List.suffix_cons _ _
      · cases h
  | ofStringP s =>
    intro i v r h
    simp only [string_p] at h
    split at h
    · cases h
      exact List.drop_suffix _ _
    · cases h
  | ofDigit =>
    intro i v r h
    cases i with
    | nil => simp [digit] at h
    | cons a as =>
      simp only [digit] at h
      split at h
      · cases h
        exact List.suffix_cons _ _
      · cases h
  | ofWhitespaceChar =>
    intro i v r h
    cases i with
    | nil => simp [whitespace_char] at h
    | cons a as =>
      simp only [whitespace_char] at h
      split at h
      · cases h
        exact List.suffix_cons _ _
      · cases h
  | @ofMap A B q f hc ih =>
    intro i v r h
    cases hpi : q i with
    | failure m =>
      simp only [map, hpi] at h
      exact ParseResult.noConfusion h
    | success v' r' =>
      simp only [map, hpi] at h
      cases h
      exact ih _ _ _ hpi
  | @ofBind A B q f hc hf ihp ihf =>
    intro i v r h
    cases hpi : q i with
    | failure m =>
      simp only [bind, hpi] at h
      exact ParseResult.noConfusion h
    | success a r1 =>
      simp only [bind, hpi] at h
      exact (ihf a r1 v r h).trans (ihp i a r1 hpi)
  | @ofSequence A B q1 q2 hc1 hc2 ih1 ih2 =>
    intro i v r h
    cases hp1 : q1 i with
    | failure m =>
      simp only [sequence, hp1] at h
      exact ParseResult.noConfusion h
    | success v1 r1 =>
      cases hp2 : q2 r1 with
      | failure m =>
        simp only [sequence, hp1, hp2] at h
        exact ParseResult.noConfusion h
      | success v2 r2 =>
        simp only [sequence, hp1, hp2] at h
        cases h
        exact (ih2 _ _ _ hp2).trans (ih1 _ _ _ hp1)
  | @ofChoice A qs hps ih =>
    intro i v r h
    simp only [choice] at h
    exact choiceGo_suffix _ ih [] v r h
  | @ofMany A q hc ih =>
    intro i v r h
    simp only [many] at h
    cases h
    exact manyGo_suffix ih (i.length + 1) i
  | @ofMany1 A q hc ih =>
    intro i v r h
    simp only [many1, many] at h
    split at h
    · cases h
    · cases h
      exact manyGo_suffix ih (i.length + 1) i
  | @ofOptionalP A q hc ih =>
    intro i v r h
    cases hpi : q i with
    | failure m =>
      simp only [optional_p, hpi] at h
      cases h
      exact List.suffix_refl i
    | success v' r' =>
      simp only [optional_p, hpi] at h
      cases h
      exact ih _ _ _ hpi
  | @ofSepBy A B qe qs hce hcs ihe ihs =>
    intro i v r h
    simp only [sep_by] at h
    cases h
    exact sepByGo_suffix ihe ihs (i.length + 1) i

theorem composed_monotonic_witness :
    List.IsSuffix ('b' :: 'c' :: []) ('a' :: 'b' :: 'c' :: []) :=
  composed_monotonic any_char Composed.ofAnyChar ('a' :: 'b' :: 'c' :: []) 'a'
    ('b' :: 'c' :: []) rfl

/-- skip_ws stays inside the composed class: it is bind of whitespace
(many of whitespace_char) into the given parser. -/
lemma composed_skip_ws {T : Type} {p : Parser T} (h : Composed p) :
    Composed (skip_ws p) :=
  Composed.ofBind (Composed.ofMany Composed.ofWhitespaceChar) (fun _ => h)

/-- integer_p stays inside the composed class: it is map of the decimal
fold over many1 of digit. -/
lemma composed_integer_p : Composed integer_p :=
  Composed.ofMap digitsToInt (Composed.ofMany1 Composed.ofDigit)

end cnomlite
